import Mathlib

/-!
Shallow embedding of the Ythosa/disguise crawler (Go), covering the two
implementations in the repository: package `main` (main.go) and package
`commands` (commands/markdown.go).  Strings are modelled as `List Char`
(the sources only ever handle ASCII URLs, labels and patterns, where Go's
byte indexing and character indexing agree).  Fallible Go operations
(slice indexing out of range, nil-pointer dereference) are modelled in
`Except GoPanic`.
-/

/-- Run-time faults of the Go code that the embedding makes explicit. -/
inductive GoPanic where
  | nilPointerDereference
  | sliceOutOfRange
deriving DecidableEq, Repr

/-- Go `strings.Split(s, sep)` for a one-character separator `sep`
(the sources only split on "/" and on " ").  `Split("", sep) = [""]`,
as in Go. -/
def goSplitChar (sep : Char) : List Char → List (List Char)
  | [] => [[]]
  | c :: cs =>
    match goSplitChar sep cs with
    | [] => if c = sep then [[], []] else [[c]]
    | h :: t => if c = sep then [] :: h :: t else (c :: h) :: t

/-- Go `strings.Join(xs, sep)`. -/
def goJoin (sep : List Char) : List (List Char) → List Char
  | [] => []
  | [x] => x
  | x :: y :: t => x ++ sep ++ goJoin sep (y :: t)

/-- Go slice expression `a[lo:hi]`; panics when `lo > hi` or
`hi > len(a)`, exactly as the Go runtime does. -/
def goSlice {α : Type} (a : List α) (lo hi : Nat) : Except GoPanic (List α) :=
  if lo ≤ hi ∧ hi ≤ a.length then Except.ok ((a.take hi).drop lo)
  else Except.error GoPanic.sliceOutOfRange

/-- Go string slice `s[:hi]` with an `int` bound `hi` (which may be
negative, in which case Go panics). -/
def goStringSliceTo (s : List Char) (hi : Int) : Except GoPanic (List Char) :=
  if 0 ≤ hi ∧ hi ≤ (s.length : Int) then Except.ok (s.take hi.toNat)
  else Except.error GoPanic.sliceOutOfRange

/-!
A regular-expression engine for the fragment of RE2 syntax that the
repository passes to `regexp`: literal characters, `.` (any character),
postfix `+`, and the end-of-text anchor `$`.  The patterns the code
builds are `.+/tree/.+`, `.+/blob/.+<ext>$` (note that a `.` inside
`<ext>` is a metacharacter there, as in the Go original), together with
the user-supplied ignore patterns and — in package main, which passes
its arguments to `regexp.Match` swapped — derived directory names.
-/

/-- Abstract syntax of the regular-expression fragment used by the code. -/
inductive RE where
  | eps
  | chr (c : Char)
  | anychar
  | endAnchor
  | seq (a b : RE)
  | plus (a : RE)
deriving Repr

/-- Size of a regular expression, used to bound the matcher's fuel. -/
def reSize : RE → Nat
  | RE.eps => 1
  | RE.chr _ => 1
  | RE.anychar => 1
  | RE.endAnchor => 1
  | RE.seq a b => 1 + reSize a + reSize b
  | RE.plus a => 1 + reSize a

/-- The atom denoted by one pattern character. -/
def reAtom (c : Char) : RE :=
  if c = '.' then RE.anychar else if c = '$' then RE.endAnchor else RE.chr c

/-- Parse a pattern string of the fragment: a sequence of atoms, each
optionally followed by `+`. -/
def parseRE : List Char → RE
  | [] => RE.eps
  | [c] => RE.seq (reAtom c) RE.eps
  | c :: d :: rest =>
    if d = '+' then RE.seq (RE.plus (reAtom c)) (parseRE rest)
    else RE.seq (reAtom c) (parseRE (d :: rest))

/-- Fuel-bounded backtracking matcher in continuation-passing style.
`matchRE fuel re s k` decides whether some prefix of `s` matches `re`
with the rest accepted by `k`; `$` succeeds only at the end of the
text. -/
def matchRE : Nat → RE → List Char → (List Char → Bool) → Bool
  | 0, _, _, _ => false
  | Nat.succ fuel, re, s, k =>
    match re with
    | RE.eps => k s
    | RE.chr c =>
      match s with
      | [] => false
      | x :: xs => if x = c then k xs else false
    | RE.anychar =>
      match s with
      | [] => false
      | _ :: xs => k xs
    | RE.endAnchor =>
      match s with
      | [] => k []
      | _ :: _ => false
    | RE.seq a b => matchRE fuel a s (fun s2 => matchRE fuel b s2 k)
    | RE.plus a => matchRE fuel a s (fun s2 => k s2 || matchRE fuel (RE.plus a) s2 k)

/-- Fuel that always suffices for the matcher on the given input. -/
def reFuel (re : RE) (s : List Char) : Nat :=
  2 * (reSize re + s.length) + 8

/-- Try a match starting at every position of `s` (unanchored search). -/
def searchRE (re : RE) : List Char → Bool
  | [] => matchRE (reFuel re []) re [] (fun _ => true)
  | c :: xs =>
    matchRE (reFuel re (c :: xs)) re (c :: xs) (fun _ => true) || searchRE re xs

/-- Go `regexp.Match(pattern, b)` / `regexp.MatchString(pattern, s)`:
whether `s` contains any match of `pattern`. -/
def goRegexMatch (pattern s : List Char) : Bool :=
  searchRE (parseRE pattern) s

/-! The data model shared by both packages (main.go lines 16-27,
markdown.go lines 16-27). -/

/-- Go struct `MDDir` (fields in source order: name, href). -/
structure MDDir where
  name : List Char
  href : List Char
deriving DecidableEq, Repr

/-- Go struct `MDFile` (fields in source order: href, name, dir). -/
structure MDFile where
  href : List Char
  name : List Char
  dir : MDDir
deriving DecidableEq, Repr

/-- A non-nil value of the Go interface type `Element`: the two structs
the code actually stores in it.  Go's `nil` interface value is
`Option.none` at use sites. -/
inductive Element where
  | dir (d : MDDir)
  | file (f : MDFile)
deriving DecidableEq, Repr

/-! HTML nodes, as much of golang.org/x/net/html as `CheckLink`,
`Extract` and `ForEachNode` consult: node type, tag/text data, the
attribute list, and the linked list of children. -/

/-- The `html.NodeType` constants consulted by the code. -/
inductive NodeType where
  | errorNode
  | textNode
  | documentNode
  | elementNode
  | commentNode
  | doctypeNode
deriving DecidableEq, Repr

/-- One entry of `html.Node.Attr`. -/
structure HtmlAttr where
  key : List Char
  val : List Char
deriving DecidableEq, Repr

mutual
/-- An `html.Node`: type, data, attributes, children
(`FirstChild`/`NextSibling` chain). -/
inductive HtmlNode where
  | mk (t : NodeType) (data : List Char) (attr : List HtmlAttr) (children : HtmlForest)

/-- The sibling chain of child nodes. -/
inductive HtmlForest where
  | nil
  | cons (n : HtmlNode) (rest : HtmlForest)
end

/-- The attribute list of a node. -/
def nodeAttrs : HtmlNode → List HtmlAttr
  | HtmlNode.mk _ _ a _ => a

/-- `n.FirstChild.Data`, guarded: `none` when `FirstChild` is nil. -/
def firstChildData : HtmlNode → Option (List Char)
  | HtmlNode.mk _ _ _ HtmlForest.nil => none
  | HtmlNode.mk _ _ _ (HtmlForest.cons (HtmlNode.mk _ d _ _) _) => some d

/-- The magic style-class constant both classifiers gate on. -/
def rightStyles : List Char := "js-navigation-open link-gray-dark".toList

/-- The pattern `regexp.MustCompile` receives for directory links. -/
def matchDirPattern : List Char := ".+/tree/.+".toList

/-- The pattern built by `fmt.Sprintf(".+/blob/.+%s$", extension)` for
file links. -/
def matchFilePattern (extension : List Char) : List Char :=
  ".+/blob/.+".toList ++ extension ++ ['$']

/-- `IsContains` of package main (main.go lines 37-49).  Note the
argument order it passes to `regexp.Match`: the candidate `pattern`
(a derived directory name at the call site) is the regular expression,
and each element of `elements` (an ignore entry at the call site) is
the text searched.  `log.Fatal` on a regex-compile error is outside the
model; the patterns reasoned about below all compile. -/
def mainIsContains (elements : List (List Char)) (pattern : List Char) : Bool :=
  elements.any (fun e => goRegexMatch pattern e)

/-- `IsContains` of package commands (markdown.go lines 37-52): an
empty-list guard, then `regexp.MatchString(e, pattern)` for each
ignore entry `e` — so each ignore entry is the regular expression and
the candidate name is the text searched, the reverse of package main. -/
def commandsIsContains (elements : List (List Char)) (pattern : List Char) : Bool :=
  if elements.length = 0 then false
  else elements.any (fun e => goRegexMatch e pattern)

/-- The mutable locals of `CheckLink`'s attribute loop, for both
packages.  Package main calls the absolute URL `fhref`; package
commands calls it `href` and never assigns its separate `dirhref`
variable, so in the commands fold the `dirhref` field stays empty. -/
structure CLState where
  hasRightStyles : Bool
  isTrackedFile : Bool
  isDir : Bool
  fhref : List Char
  fname : List Char
  dirname : List Char
  dirhref : List Char
deriving DecidableEq, Repr

/-- The state of the locals before the attribute loop runs. -/
def initCLState : CLState := ⟨false, false, false, [], [], [], []⟩

/-- The body of `CheckLink`'s attribute loop in package main (main.go
lines 64-87) for one attribute.  On an `href` attribute it prefixes the
origin, dereferences `n.FirstChild.Data` (a nil-pointer fault when the
node has no child), splits the URL, tests the directory shape then the
file shape, and derives `dirname` (`pathArray[5:len-1]` for directories,
`pathArray[7:len-1]` for files) and `dirhref` (`pathArray[:len-1]`). -/
def mainProcessAttr (extension : List Char) (n : HtmlNode) (st : CLState)
    (a : HtmlAttr) : Except GoPanic CLState :=
  if a.key = "href".toList then
    let fhref := "https://github.com".toList ++ a.val
    match firstChildData n with
    | none => Except.error GoPanic.nilPointerDereference
    | some fname =>
      let pathArray := goSplitChar '/' fhref
      let st1 : CLState := { st with fhref := fhref, fname := fname }
      let shaped : Except GoPanic CLState :=
        if goRegexMatch matchDirPattern fhref then
          match goSlice pathArray 5 (pathArray.length - 1) with
          | Except.error e => Except.error e
          | Except.ok seg =>
            Except.ok { st1 with isDir := true, dirname := goJoin ['/'] seg }
        else if goRegexMatch (matchFilePattern extension) fhref then
          match goSlice pathArray 7 (pathArray.length - 1) with
          | Except.error e => Except.error e
          | Except.ok seg =>
            Except.ok { st1 with isTrackedFile := true, dirname := goJoin ['/'] seg }
        else Except.ok st1
      match shaped with
      | Except.error e => Except.error e
      | Except.ok st2 =>
        if st2.isDir || st2.isTrackedFile then
          match goSlice pathArray 0 (pathArray.length - 1) with
          | Except.error e => Except.error e
          | Except.ok seg => Except.ok { st2 with dirhref := goJoin ['/'] seg }
        else Except.ok st2
  else if a.key = "class".toList then
    Except.ok (if a.val = rightStyles then { st with hasRightStyles := true } else st)
  else Except.ok st

/-- The body of `CheckLink`'s attribute loop in package commands
(markdown.go lines 69-88): directory names are
`pathArray[6:len(pathArray)]`, file names `pathArray[7:len-1]`, and no
`dirhref` is ever assigned. -/
def commandsProcessAttr (extension : List Char) (n : HtmlNode) (st : CLState)
    (a : HtmlAttr) : Except GoPanic CLState :=
  if a.key = "href".toList then
    let href := "https://github.com".toList ++ a.val
    match firstChildData n with
    | none => Except.error GoPanic.nilPointerDereference
    | some fname =>
      let pathArray := goSplitChar '/' href
      let st1 : CLState := { st with fhref := href, fname := fname }
      if goRegexMatch matchDirPattern href then
        match goSlice pathArray 6 pathArray.length with
        | Except.error e => Except.error e
        | Except.ok seg =>
          Except.ok { st1 with isDir := true, dirname := goJoin ['/'] seg }
      else if goRegexMatch (matchFilePattern extension) href then
        match goSlice pathArray 7 (pathArray.length - 1) with
        | Except.error e => Except.error e
        | Except.ok seg =>
          Except.ok { st1 with isTrackedFile := true, dirname := goJoin ['/'] seg }
      else Except.ok st1
  else if a.key = "class".toList then
    Except.ok (if a.val = rightStyles then { st with hasRightStyles := true } else st)
  else Except.ok st

/-- Run an attribute-loop body over the attribute list in order. -/
def attrFold (step : CLState → HtmlAttr → Except GoPanic CLState) :
    List HtmlAttr → CLState → Except GoPanic CLState
  | [], st => Except.ok st
  | a :: rest, st =>
    match step st a with
    | Except.error e => Except.error e
    | Except.ok st2 => attrFold step rest st2

/-- The attribute loop of package main's `CheckLink` on a node. -/
def mainAttrLoop (extension : List Char) (n : HtmlNode) : Except GoPanic CLState :=
  attrFold (mainProcessAttr extension n) (nodeAttrs n) initCLState

/-- The attribute loop of package commands' `CheckLink` on a node. -/
def commandsAttrLoop (extension : List Char) (n : HtmlNode) : Except GoPanic CLState :=
  attrFold (commandsProcessAttr extension n) (nodeAttrs n) initCLState

/-- The tail of package main's `CheckLink` (main.go lines 89-112): the
ignore check runs first (before the style gate); a tracked file yields
`MDFile{fhref, fname[:len-len(ext)], MDDir{dirhref, dirname}}`; a
directory yields `MDDir{dirhref, dirname}`. -/
def mainFinish (extension : List Char) (ignoreDirs : List (List Char))
    (st : CLState) : Except GoPanic (Option Element) :=
  if mainIsContains ignoreDirs st.dirname then Except.ok none
  else if st.hasRightStyles && st.isTrackedFile then
    match goStringSliceTo st.fname ((st.fname.length : Int) - (extension.length : Int)) with
    | Except.error e => Except.error e
    | Except.ok nm =>
      Except.ok (some (Element.file ⟨st.fhref, nm, ⟨st.dirname, st.dirhref⟩⟩))
  else if st.hasRightStyles && st.isDir then
    Except.ok (some (Element.dir ⟨st.dirname, st.dirhref⟩))
  else Except.ok none

/-- The tail of package commands' `CheckLink` (markdown.go lines
90-116): the style gate runs first, then the ignore check; a tracked
file's parent `MDDir` gets the never-assigned `dirhref` (empty) while a
directory link's `href` is the full link URL. -/
def commandsFinish (extension : List Char) (ignoreDirs : List (List Char))
    (st : CLState) : Except GoPanic (Option Element) :=
  if st.hasRightStyles = false then Except.ok none
  else if commandsIsContains ignoreDirs st.dirname then Except.ok none
  else if st.isTrackedFile then
    match goStringSliceTo st.fname ((st.fname.length : Int) - (extension.length : Int)) with
    | Except.error e => Except.error e
    | Except.ok nm =>
      Except.ok (some (Element.file ⟨st.fhref, nm, ⟨st.dirname, st.dirhref⟩⟩))
  else if st.isDir then
    Except.ok (some (Element.dir ⟨st.dirname, st.fhref⟩))
  else Except.ok none

/-- `CheckLink` of package main (main.go lines 51-112). -/
def mainCheckLink (n : HtmlNode) (extension : List Char)
    (ignoreDirs : List (List Char)) : Except GoPanic (Option Element) :=
  match mainAttrLoop extension n with
  | Except.error e => Except.error e
  | Except.ok st => mainFinish extension ignoreDirs st

/-- `CheckLink` of package commands (markdown.go lines 54-117). -/
def commandsCheckLink (n : HtmlNode) (extension : List Char)
    (ignoreDirs : List (List Char)) : Except GoPanic (Option Element) :=
  match commandsAttrLoop extension n with
  | Except.error e => Except.error e
  | Except.ok st => commandsFinish extension ignoreDirs st

/-- `getIgnoreDirs` of package commands (markdown.go lines 212-218):
split the flag on spaces, and replace the one-element list produced by
an empty flag with the empty list. -/
def getIgnoreDirs (toIgnore : List Char) : List (List Char) :=
  let ignoreDirs := goSplitChar ' ' toIgnore
  if ignoreDirs.head? = some [] then [] else ignoreDirs

/-! Page extraction (main.go lines 114-146, markdown.go lines 119-154).
The network fetch and HTML parse are the external collaborators the
specification excludes; the embedding starts from the parsed document
node.  `ForEachNode` is the pre-order traversal; `visitNode` appends
the classifier result of every `<a>` element — unconditionally in
package main, only when non-nil in package commands. -/

mutual
/-- `ForEachNode` with package main's `visitNode`: the classifier
result of every anchor element is appended, nil included. -/
def mainVisitNode (extension : List Char) (ignoreDirs : List (List Char)) :
    HtmlNode → List (Option Element) → Except GoPanic (List (Option Element))
  | HtmlNode.mk t d a cs, acc =>
    let visited : Except GoPanic (List (Option Element)) :=
      if t = NodeType.elementNode ∧ d = "a".toList then
        match mainCheckLink (HtmlNode.mk t d a cs) extension ignoreDirs with
        | Except.error e => Except.error e
        | Except.ok l => Except.ok (acc ++ [l])
      else Except.ok acc
    match visited with
    | Except.error e => Except.error e
    | Except.ok acc2 => mainVisitForest extension ignoreDirs cs acc2

/-- Traversal of a sibling chain for package main. -/
def mainVisitForest (extension : List Char) (ignoreDirs : List (List Char)) :
    HtmlForest → List (Option Element) → Except GoPanic (List (Option Element))
  | HtmlForest.nil, acc => Except.ok acc
  | HtmlForest.cons n rest, acc =>
    match mainVisitNode extension ignoreDirs n acc with
    | Except.error e => Except.error e
    | Except.ok acc2 => mainVisitForest extension ignoreDirs rest acc2
end

mutual
/-- `ForEachNode` with package commands' `visitNode`: the classifier
result of an anchor element is appended only when it is non-nil. -/
def commandsVisitNode (extension : List Char) (ignoreDirs : List (List Char)) :
    HtmlNode → List Element → Except GoPanic (List Element)
  | HtmlNode.mk t d a cs, acc =>
    let visited : Except GoPanic (List Element) :=
      if t = NodeType.elementNode ∧ d = "a".toList then
        match commandsCheckLink (HtmlNode.mk t d a cs) extension ignoreDirs with
        | Except.error e => Except.error e
        | Except.ok none => Except.ok acc
        | Except.ok (some l) => Except.ok (acc ++ [l])
      else Except.ok acc
    match visited with
    | Except.error e => Except.error e
    | Except.ok acc2 => commandsVisitForest extension ignoreDirs cs acc2

/-- Traversal of a sibling chain for package commands. -/
def commandsVisitForest (extension : List Char) (ignoreDirs : List (List Char)) :
    HtmlForest → List Element → Except GoPanic (List Element)
  | HtmlForest.nil, acc => Except.ok acc
  | HtmlForest.cons n rest, acc =>
    match commandsVisitNode extension ignoreDirs n acc with
    | Except.error e => Except.error e
    | Except.ok acc2 => commandsVisitForest extension ignoreDirs rest acc2
end

/-- The collection phase of package main's `Extract` on a parsed
document (main.go lines 130-138). -/
def mainExtractFromDoc (doc : HtmlNode) (extension : List Char)
    (ignoreDirs : List (List Char)) : Except GoPanic (List (Option Element)) :=
  mainVisitNode extension ignoreDirs doc []

/-- The collection phase of package commands' `Extract` on a parsed
document (markdown.go lines 135-146). -/
def commandsExtractFromDoc (doc : HtmlNode) (extension : List Char)
    (ignoreDirs : List (List Char)) : Except GoPanic (List Element) :=
  commandsVisitNode extension ignoreDirs doc []

mutual
/-- Modelled from the spec: the anchor-shaped nodes of a document in
pre-order traversal order, the declarative reading of `ForEachNode`
against which the accumulating traversals are verified. -/
def nodeAnchors : HtmlNode → List HtmlNode
  | HtmlNode.mk t d a cs =>
    (if t = NodeType.elementNode ∧ d = "a".toList then [HtmlNode.mk t d a cs] else []) ++
      forestAnchors cs

/-- Anchor-shaped nodes of a sibling chain, in order. -/
def forestAnchors : HtmlForest → List HtmlNode
  | HtmlForest.nil => []
  | HtmlForest.cons n rest => nodeAnchors n ++ forestAnchors rest
end

/-- Map a fallible classifier over a node list, left to right, keeping
every result (the declarative counterpart of package main's collector). -/
def exceptMapList (g : HtmlNode → Except GoPanic (Option Element)) :
    List HtmlNode → Except GoPanic (List (Option Element))
  | [] => Except.ok []
  | n :: ns =>
    match g n with
    | Except.error e => Except.error e
    | Except.ok l =>
      match exceptMapList g ns with
      | Except.error e => Except.error e
      | Except.ok ls => Except.ok (l :: ls)

/-- Map a fallible classifier over a node list, left to right, keeping
only the non-absent results (the declarative counterpart of package
commands' collector). -/
def exceptCollectList (g : HtmlNode → Except GoPanic (Option Element)) :
    List HtmlNode → Except GoPanic (List Element)
  | [] => Except.ok []
  | n :: ns =>
    match g n with
    | Except.error e => Except.error e
    | Except.ok l =>
      match exceptCollectList g ns with
      | Except.error e => Except.error e
      | Except.ok ls =>
        Except.ok (match l with
          | none => ls
          | some x => x :: ls)

/-! Result grouping (main.go lines 148-155, markdown.go lines 156-163):
`GroupByDir` builds `map[MDDir][]MDFile`, appending each file to the
bucket of its `dir` field.  A Go map keyed by the struct `MDDir`
compares both fields; the map is modelled as an association list with
insertion-ordered buckets, which preserves exactly the key equality and
per-bucket append order of the Go map. -/

/-- Append one file to the bucket of its `dir` key, creating the bucket
if the key is new (the Go `grouped[f.dir] = append(grouped[f.dir], f)`). -/
def insertGrouped (g : List (MDDir × List MDFile)) (f : MDFile) :
    List (MDDir × List MDFile) :=
  match g with
  | [] => [(f.dir, [f])]
  | (k, v) :: rest =>
    if k = f.dir then (k, v ++ [f]) :: rest else (k, v) :: insertGrouped rest f

/-- `GroupByDir` (both packages, identical code). -/
def GroupByDir (files : List MDFile) : List (MDDir × List MDFile) :=
  files.foldl insertGrouped []

/-- Bucket lookup in the grouped map: the files stored under key `d`. -/
def groupOf : List (MDDir × List MDFile) → MDDir → List MDFile
  | [], _ => []
  | (k, v) :: rest, d => if k = d then v else groupOf rest d

/-- Modelled from the spec: the files of a list whose parent directory
equals `d`, in input order — the intended content of bucket `d`. -/
def filesWithDir (d : MDDir) : List MDFile → List MDFile
  | [] => []
  | f :: fs => if f.dir = d then f :: filesWithDir d fs else filesWithDir d fs

/-! The crawl engine (main.go lines 157-182; markdown.go lines 165-191
is identical up to a `time.Sleep` before each dispatch).  `Crawl` keeps
a scalar pending counter `n` (initially 1 for the root fetch), blocks on
the worklist channel for one extraction batch per iteration, dispatches
one new fetch per directory link in the batch (`n++`), appends file
links to `results`, and decrements `n` after each batch; it returns when
`n` reaches 0.

The fetches run concurrently and deliver in an arbitrary order; the
embedding sequentializes this by drawing the next delivered batch from
the set of in-flight fetches under an arbitrary scheduler.  Since every
claim about the engine presumes the fetched pages form a finite acyclic
directory tree, an in-flight fetch is identified with the subtree of
pages it will deliver: `DirTree.mk links` is one page whose anchor
batch `links` interleaves file links and directory links, each
directory link carrying the subtree its own fetch will deliver. -/

mutual
/-- A finite acyclic directory tree: one page per directory. -/
inductive DirTree where
  | mk (links : LinkList)

/-- The typed-link batch of one page, in page order. -/
inductive LinkList where
  | nil
  | file (f : MDFile) (rest : LinkList)
  | dir (t : DirTree) (rest : LinkList)
end

/-- The batch of a page. -/
def treeLinks : DirTree → LinkList
  | DirTree.mk l => l

/-- The file links of a batch, in order. -/
def filesOf : LinkList → List MDFile
  | LinkList.nil => []
  | LinkList.file f rest => f :: filesOf rest
  | LinkList.dir _ rest => filesOf rest

/-- The directory links of a batch, in order. -/
def dirsOf : LinkList → List DirTree
  | LinkList.nil => []
  | LinkList.file _ rest => dirsOf rest
  | LinkList.dir t rest => t :: dirsOf rest

mutual
/-- Number of directories of the tree, root included. -/
def treeSize : DirTree → Nat
  | DirTree.mk l => 1 + linkListSize l

/-- Number of directories hanging off a batch. -/
def linkListSize : LinkList → Nat
  | LinkList.nil => 0
  | LinkList.file _ rest => linkListSize rest
  | LinkList.dir t rest => treeSize t + linkListSize rest
end

/-- Number of directories across a list of in-flight subtrees. -/
def forestSize : List DirTree → Nat
  | [] => 0
  | t :: ts => treeSize t + forestSize ts

/-- Occurrences of the file link `f` in a list (files carry no identity
beyond their field values, exactly as in the Go slices). -/
def countFile (f : MDFile) : List MDFile → Nat
  | [] => 0
  | g :: gs => (if g = f then 1 else 0) + countFile f gs

mutual
/-- Occurrences of the file link `f` anywhere in the tree. -/
def treeFileCount (f : MDFile) : DirTree → Nat
  | DirTree.mk l => linkFileCount f l

/-- Occurrences of the file link `f` in a batch and its subtrees. -/
def linkFileCount (f : MDFile) : LinkList → Nat
  | LinkList.nil => 0
  | LinkList.file g rest => (if g = f then 1 else 0) + linkFileCount f rest
  | LinkList.dir t rest => treeFileCount f t + linkFileCount f rest
end

/-- Occurrences of the file link `f` across a list of subtrees. -/
def forestFileCount (f : MDFile) : List DirTree → Nat
  | [] => 0
  | t :: ts => treeFileCount f t + forestFileCount f ts

/-- Remove the `i`-th element of a list, returning it and the rest. -/
def removeNth {α : Type} : Nat → List α → Option (α × List α)
  | _, [] => none
  | 0, t :: ts => some (t, ts)
  | Nat.succ n, t :: ts =>
    match removeNth n ts with
    | none => none
    | some (x, r) => some (x, t :: r)

/-- The engine state: `pending` are the in-flight fetches (the Go
counter `n` is its length), `results` the accumulated file links,
`dispatched` the number of fetch tasks started so far, `time` the
number of batches consumed (used to drive the scheduler). -/
structure CrawlState where
  pending : List DirTree
  results : List MDFile
  dispatched : Nat
  time : Nat

/-- One iteration of the crawl loop: the scheduler picks which
in-flight fetch delivers; its batch is scanned in order, directory
links dispatch new fetches (`n++`) and file links are appended to
`results`; consuming the batch is the loop's `n--`. -/
def crawlStep (sched : Nat → Nat) (st : CrawlState) : CrawlState :=
  match removeNth (sched st.time % st.pending.length) st.pending with
  | none => st
  | some (t, rest) =>
    { pending := rest ++ dirsOf (treeLinks t)
      results := st.results ++ filesOf (treeLinks t)
      dispatched := st.dispatched + (dirsOf (treeLinks t)).length
      time := st.time + 1 }

/-- The crawl loop, `fuel` bounding the number of iterations (the
theorems show `treeSize` iterations always drain `pending`). -/
def crawlRun (sched : Nat → Nat) : Nat → CrawlState → CrawlState
  | 0, st => st
  | Nat.succ fuel, st =>
    if st.pending.length = 0 then st else crawlRun sched fuel (crawlStep sched st)

/-- `Crawl` on a directory tree: one fetch in flight for the root
(`n = 1`, `dispatched = 1`), then the loop. -/
def crawl (sched : Nat → Nat) (t : DirTree) : CrawlState :=
  crawlRun sched (treeSize t) ⟨[t], [], 1, 0⟩

/-! Lemmas about the crawl engine. -/

/-- Every directory tree has at least its root directory. -/
theorem treeSize_pos : ∀ (t : DirTree), 1 ≤ treeSize t
  | DirTree.mk l => by simp [treeSize]

/-- Directory counts add across concatenated in-flight lists. -/
theorem forestSize_append : ∀ (a b : List DirTree),
    forestSize (a ++ b) = forestSize a + forestSize b
  | [], b => by simp [forestSize]
  | t :: ts, b => by
    simp [forestSize, forestSize_append ts b]
    omega

/-- An in-flight list with no directories is empty. -/
theorem forestSize_eq_zero : ∀ (l : List DirTree), forestSize l = 0 → l = []
  | [], _ => rfl
  | t :: ts, h => by
    exfalso
    have := treeSize_pos t
    simp [forestSize] at h
    omega

/-- The subtrees hanging off a batch carry the batch's directory count. -/
theorem forestSize_dirsOf : ∀ (l : LinkList), forestSize (dirsOf l) = linkListSize l
  | LinkList.nil => by simp [dirsOf, linkListSize, forestSize]
  | LinkList.file f rest => by simp [dirsOf, linkListSize, forestSize_dirsOf rest]
  | LinkList.dir t rest => by
    simp [dirsOf, linkListSize, forestSize, forestSize_dirsOf rest]

/-- File-occurrence counts add across concatenated lists. -/
theorem countFile_append (f : MDFile) : ∀ (a b : List MDFile),
    countFile f (a ++ b) = countFile f a + countFile f b
  | [], b => by simp [countFile]
  | g :: gs, b => by
    simp [countFile, countFile_append f gs b]
    omega

/-- File-occurrence counts add across concatenated in-flight lists. -/
theorem forestFileCount_append (f : MDFile) : ∀ (a b : List DirTree),
    forestFileCount f (a ++ b) = forestFileCount f a + forestFileCount f b
  | [], b => by simp [forestFileCount]
  | t :: ts, b => by
    simp [forestFileCount, forestFileCount_append f ts b]
    omega

/-- A batch's file occurrences split into its immediate files and the
files of its subtrees. -/
theorem linkFileCount_split (f : MDFile) : ∀ (l : LinkList),
    countFile f (filesOf l) + forestFileCount f (dirsOf l) = linkFileCount f l
  | LinkList.nil => by simp [filesOf, dirsOf, countFile, forestFileCount, linkFileCount]
  | LinkList.file g rest => by
    simp [filesOf, dirsOf, countFile, linkFileCount, ← linkFileCount_split f rest]
    omega
  | LinkList.dir t rest => by
    simp [filesOf, dirsOf, forestFileCount, linkFileCount, ← linkFileCount_split f rest]
    omega

/-- Removing a valid index yields the element together with bookkeeping
identities for lengths, directory counts and file counts. -/
theorem removeNth_spec : ∀ (l : List DirTree) (i : Nat), i < l.length →
    ∃ x rest, removeNth i l = some (x, rest) ∧
      rest.length + 1 = l.length ∧
      forestSize rest + treeSize x = forestSize l ∧
      ∀ f, forestFileCount f rest + treeFileCount f x = forestFileCount f l
  | [], i, h => by simp at h
  | t :: ts, 0, _ =>
    ⟨t, ts, rfl, rfl, by simp [forestSize]; omega, fun f => by simp [forestFileCount]; omega⟩
  | t :: ts, Nat.succ n, h => by
    have hn : n < ts.length := by simpa using Nat.lt_of_succ_lt_succ h
    obtain ⟨x, rest, hrm, hlen, hsz, hcnt⟩ := removeNth_spec ts n hn
    refine ⟨x, t :: rest, ?_, ?_, ?_, ?_⟩
    · simp [removeNth, hrm]
    · simp [← hlen]
    · simp [forestSize, ← hsz]
      omega
    · intro f
      simp [forestFileCount, ← hcnt f]
      omega

/-- Draining invariant of the crawl loop: with fuel at least the number
of directories still to be delivered, the loop empties `pending`
(the counter `n` reaches 0), dispatches exactly one fetch per pending
directory, and appends exactly the files of the pending subtrees. -/
theorem crawlRun_spec (sched : Nat → Nat) : ∀ (fuel : Nat) (st : CrawlState),
    forestSize st.pending ≤ fuel →
    (crawlRun sched fuel st).pending = [] ∧
    (crawlRun sched fuel st).dispatched + st.pending.length =
      st.dispatched + forestSize st.pending ∧
    ∀ f, countFile f (crawlRun sched fuel st).results =
      countFile f st.results + forestFileCount f st.pending := by
  intro fuel
  induction fuel with
  | zero =>
    intro st h
    have hz : forestSize st.pending = 0 := Nat.le_zero.mp h
    have hp : st.pending = [] := forestSize_eq_zero _ hz
    refine ⟨by simp [crawlRun, hp], by simp [crawlRun, hp, forestSize], ?_⟩
    intro f
    simp [crawlRun, hp, forestFileCount]
  | succ fuel ih =>
    intro st h
    by_cases hp : st.pending.length = 0
    · have hnil : st.pending = [] := List.length_eq_zero.mp hp
      simp [crawlRun, hp, hnil, forestSize, forestFileCount]
    · have hlen : 0 < st.pending.length := Nat.pos_of_ne_zero hp
      obtain ⟨x, rest, hrm, hlen2, hsz, hcnt⟩ :=
        removeNth_spec st.pending (sched st.time % st.pending.length)
          (Nat.mod_lt _ hlen)
      obtain ⟨l⟩ := x
      have hstep : crawlStep sched st =
          { pending := rest ++ dirsOf l
            results := st.results ++ filesOf l
            dispatched := st.dispatched + (dirsOf l).length
            time := st.time + 1 } := by
        simp [crawlStep, hrm, treeLinks]
      have hpend2 : (crawlStep sched st).pending = rest ++ dirsOf l := by rw [hstep]
      have hres2 : (crawlStep sched st).results = st.results ++ filesOf l := by
        rw [hstep]
      have hdisp2 : (crawlStep sched st).dispatched =
          st.dispatched + (dirsOf l).length := by rw [hstep]
      have hrun : crawlRun sched (Nat.succ fuel) st =
          crawlRun sched fuel (crawlStep sched st) := by
        simp [crawlRun, hp]
      have hszx : forestSize (dirsOf l) + 1 = treeSize (DirTree.mk l) := by
        simp [treeSize, forestSize_dirsOf]
        omega
      have hforest : forestSize (crawlStep sched st).pending + 1 =
          forestSize st.pending := by
        rw [hpend2, forestSize_append]
        omega
      have hfuel : forestSize (crawlStep sched st).pending ≤ fuel := by omega
      obtain ⟨ih1, ih2, ih3⟩ := ih (crawlStep sched st) hfuel
      rw [hpend2, hdisp2] at ih2
      simp only [List.length_append] at ih2
      rw [hpend2] at hforest
      refine ⟨by rw [hrun]; exact ih1, by rw [hrun]; omega, ?_⟩
      intro f
      have e3 := ih3 f
      rw [hres2, hpend2] at e3
      rw [countFile_append, forestFileCount_append] at e3
      have hx : countFile f (filesOf l) + forestFileCount f (dirsOf l) =
          treeFileCount f (DirTree.mk l) := by
        simp [treeFileCount, linkFileCount_split]
      have hc := hcnt f
      rw [hrun]
      omega

/-- Claim C1: for every finite acyclic directory tree and every delivery
order, `Crawl` terminates with the pending counter (the length of the
in-flight list) at exactly 0, and the number of dispatched fetch tasks
equals the number of directories in the tree, root included. -/
theorem crawl_terminates_and_counts_fetches (sched : Nat → Nat) (t : DirTree) :
    (crawl sched t).pending = [] ∧ (crawl sched t).dispatched = treeSize t := by
  obtain ⟨h1, h2, _⟩ := crawlRun_spec sched (treeSize t) ⟨[t], [], 1, 0⟩
    (by simp [forestSize])
  refine ⟨h1, ?_⟩
  simp [forestSize] at h2
  simpa [crawl] using by omega

/-- Claim C8: under every delivery order, each file link appears in the
crawl result exactly as many times as it occurs in the crawled tree —
a directory referenced along k distinct parent paths contributes its
files k times — and every directory occurrence is fetched separately
(`dispatched` counts occurrences, with no deduplication anywhere). -/
theorem crawl_no_deduplication (sched : Nat → Nat) (t : DirTree) (f : MDFile) :
    countFile f (crawl sched t).results = treeFileCount f t ∧
    (crawl sched t).dispatched = treeSize t := by
  obtain ⟨h1, h2, h3⟩ := crawlRun_spec sched (treeSize t) ⟨[t], [], 1, 0⟩
    (by simp [forestSize])
  constructor
  · have := h3 f
    simpa [crawl, countFile, forestFileCount] using this
  · simp [forestSize] at h2
    simpa [crawl] using by omega

/-! Lemmas about page extraction. -/

/-- Mapping a classifier over a concatenation splits like the
concatenation. -/
theorem exceptMapList_append (g : HtmlNode → Except GoPanic (Option Element)) :
    ∀ (a b : List HtmlNode),
    exceptMapList g (a ++ b) =
      match exceptMapList g a with
      | Except.error e => Except.error e
      | Except.ok la =>
        match exceptMapList g b with
        | Except.error e => Except.error e
        | Except.ok lb => Except.ok (la ++ lb)
  | [], b => by
    simp only [List.nil_append, exceptMapList]
    cases exceptMapList g b <;> simp
  | n :: ns, b => by
    have ih := exceptMapList_append g ns b
    simp only [List.cons_append, exceptMapList, List.append_eq]
    cases g n with
    | error e => simp
    | ok l =>
      rw [ih]
      cases exceptMapList g ns with
      | error e => simp
      | ok la =>
        cases exceptMapList g b <;> simp

/-- Collecting non-absent results over a concatenation splits like the
concatenation. -/
theorem exceptCollectList_append (g : HtmlNode → Except GoPanic (Option Element)) :
    ∀ (a b : List HtmlNode),
    exceptCollectList g (a ++ b) =
      match exceptCollectList g a with
      | Except.error e => Except.error e
      | Except.ok la =>
        match exceptCollectList g b with
        | Except.error e => Except.error e
        | Except.ok lb => Except.ok (la ++ lb)
  | [], b => by
    simp only [List.nil_append, exceptCollectList]
    cases exceptCollectList g b <;> simp
  | n :: ns, b => by
    have ih := exceptCollectList_append g ns b
    simp only [List.cons_append, exceptCollectList, List.append_eq]
    cases g n with
    | error e => simp
    | ok l =>
      rw [ih]
      cases exceptCollectList g ns with
      | error e => cases l <;> simp
      | ok la =>
        cases exceptCollectList g b <;> cases l <;> simp

mutual
/-- The accumulating main traversal equals the declarative map over the
pre-order anchor list, prefixed by the accumulator. -/
theorem mainVisitNode_spec (extension : List Char) (ignoreDirs : List (List Char)) :
    ∀ (n : HtmlNode) (acc : List (Option Element)),
    mainVisitNode extension ignoreDirs n acc =
      match exceptMapList (fun m => mainCheckLink m extension ignoreDirs) (nodeAnchors n) with
      | Except.error e => Except.error e
      | Except.ok ls => Except.ok (acc ++ ls)
  | HtmlNode.mk t d a cs, acc => by
    have hf := mainVisitForest_spec extension ignoreDirs cs
    by_cases hta : t = NodeType.elementNode ∧ d = "a".toList
    · simp only [mainVisitNode, nodeAnchors, if_pos hta, List.singleton_append,
        exceptMapList]
      cases hml : mainCheckLink (HtmlNode.mk t d a cs) extension ignoreDirs with
      | error e => simp
      | ok l =>
        simp only
        rw [hf (acc ++ [l])]
        cases exceptMapList (fun m => mainCheckLink m extension ignoreDirs)
            (forestAnchors cs) <;> simp
    · simp only [mainVisitNode, nodeAnchors, if_neg hta, List.nil_append]
      rw [hf acc]

/-- The accumulating main traversal of a sibling chain equals the
declarative map over the chain's pre-order anchor list. -/
theorem mainVisitForest_spec (extension : List Char) (ignoreDirs : List (List Char)) :
    ∀ (l : HtmlForest) (acc : List (Option Element)),
    mainVisitForest extension ignoreDirs l acc =
      match exceptMapList (fun m => mainCheckLink m extension ignoreDirs) (forestAnchors l) with
      | Except.error e => Except.error e
      | Except.ok ls => Except.ok (acc ++ ls)
  | HtmlForest.nil, acc => by simp [mainVisitForest, forestAnchors, exceptMapList]
  | HtmlForest.cons n rest, acc => by
    have hn := mainVisitNode_spec extension ignoreDirs n acc
    have hr := mainVisitForest_spec extension ignoreDirs rest
    simp only [mainVisitForest, forestAnchors]
    rw [exceptMapList_append]
    cases hA : exceptMapList (fun m => mainCheckLink m extension ignoreDirs)
        (nodeAnchors n) with
    | error e =>
      rw [hA] at hn
      simp only at hn
      simp [hn]
    | ok la =>
      rw [hA] at hn
      simp only at hn
      simp only [hn]
      rw [hr (acc ++ la)]
      cases exceptMapList (fun m => mainCheckLink m extension ignoreDirs)
          (forestAnchors rest) <;> simp
end

mutual
/-- The accumulating commands traversal equals the declarative
collection over the pre-order anchor list, prefixed by the
accumulator. -/
theorem commandsVisitNode_spec (extension : List Char) (ignoreDirs : List (List Char)) :
    ∀ (n : HtmlNode) (acc : List Element),
    commandsVisitNode extension ignoreDirs n acc =
      match exceptCollectList (fun m => commandsCheckLink m extension ignoreDirs) (nodeAnchors n) with
      | Except.error e => Except.error e
      | Except.ok ls => Except.ok (acc ++ ls)
  | HtmlNode.mk t d a cs, acc => by
    have hf := commandsVisitForest_spec extension ignoreDirs cs
    by_cases hta : t = NodeType.elementNode ∧ d = "a".toList
    · simp only [commandsVisitNode, nodeAnchors, if_pos hta, List.singleton_append,
        exceptCollectList]
      cases hml : commandsCheckLink (HtmlNode.mk t d a cs) extension ignoreDirs with
      | error e => simp
      | ok l =>
        cases l with
        | none =>
          simp only
          rw [hf acc]
          cases exceptCollectList (fun m => commandsCheckLink m extension ignoreDirs)
              (forestAnchors cs) <;> simp
        | some x =>
          simp only
          rw [hf (acc ++ [x])]
          cases exceptCollectList (fun m => commandsCheckLink m extension ignoreDirs)
              (forestAnchors cs) <;> simp
    · simp only [commandsVisitNode, nodeAnchors, if_neg hta, List.nil_append]
      rw [hf acc]

/-- The accumulating commands traversal of a sibling chain equals the
declarative collection over the chain's pre-order anchor list. -/
theorem commandsVisitForest_spec (extension : List Char) (ignoreDirs : List (List Char)) :
    ∀ (l : HtmlForest) (acc : List Element),
    commandsVisitForest extension ignoreDirs l acc =
      match exceptCollectList (fun m => commandsCheckLink m extension ignoreDirs) (forestAnchors l) with
      | Except.error e => Except.error e
      | Except.ok ls => Except.ok (acc ++ ls)
  | HtmlForest.nil, acc => by
    simp [commandsVisitForest, forestAnchors, exceptCollectList]
  | HtmlForest.cons n rest, acc => by
    have hn := commandsVisitNode_spec extension ignoreDirs n acc
    have hr := commandsVisitForest_spec extension ignoreDirs rest
    simp only [commandsVisitForest, forestAnchors]
    rw [exceptCollectList_append]
    cases hA : exceptCollectList (fun m => commandsCheckLink m extension ignoreDirs)
        (nodeAnchors n) with
    | error e =>
      rw [hA] at hn
      simp only at hn
      simp [hn]
    | ok la =>
      rw [hA] at hn
      simp only at hn
      simp only [hn]
      rw [hr (acc ++ la)]
      cases exceptCollectList (fun m => commandsCheckLink m extension ignoreDirs)
          (forestAnchors rest) <;> simp
end

/-! Lemmas about result grouping. -/

/-- Inserting a file extends exactly the bucket keyed by its whole
`dir` value (a Go map keyed by a struct compares every field). -/
theorem groupOf_insertGrouped (f : MDFile) (d : MDDir) :
    ∀ (g : List (MDDir × List MDFile)),
    groupOf (insertGrouped g f) d =
      if f.dir = d then groupOf g d ++ [f] else groupOf g d
  | [] => by
    by_cases hd : f.dir = d <;> simp [insertGrouped, groupOf, hd]
  | (k, v) :: rest => by
    simp only [insertGrouped]
    by_cases hk : k = f.dir
    · rw [if_pos hk]
      by_cases hd : k = d
      · have hfd : f.dir = d := hk.symm.trans hd
        simp [groupOf, hd, hfd]
      · have hfd : ¬ f.dir = d := fun h => hd (hk.trans h)
        simp [groupOf, hd, hfd]
    · rw [if_neg hk]
      by_cases hd : k = d
      · have hfd : ¬ f.dir = d := fun h => hk (hd.trans h.symm)
        simp [groupOf, hd, hfd]
      · simp [groupOf, hd, groupOf_insertGrouped f d rest]

/-- After folding a file list into the map, bucket `d` holds exactly
the input files whose `dir` equals `d`, in input order. -/
theorem groupOf_foldl (d : MDDir) : ∀ (files : List MDFile) (g : List (MDDir × List MDFile)),
    groupOf (files.foldl insertGrouped g) d = groupOf g d ++ filesWithDir d files
  | [], g => by simp [filesWithDir]
  | f :: fs, g => by
    by_cases hd : f.dir = d <;>
      simp [filesWithDir, hd, groupOf_foldl d fs (insertGrouped g f),
        groupOf_insertGrouped, List.append_assoc]

/-- Claim C6 (amended): `GroupByDir` puts two files in the same bucket
exactly when their whole `parentDirectory` records agree — the Go map
key is the `MDDir` struct, so the `href` field participates in grouping
equality, not the derived name alone: bucket `d` holds precisely the
files whose `dir` equals `d` field-for-field. -/
theorem groupByDir_groups_by_whole_dir (files : List MDFile) (d : MDDir) :
    groupOf (GroupByDir files) d = filesWithDir d files := by
  rw [GroupByDir, groupOf_foldl]
  simp [groupOf]

/-- Two file links whose parent directories share the derived name but
not the href. -/
def gf1 : MDFile := ⟨"hf1".toList, "f1".toList, ⟨"a".toList, "h1".toList⟩⟩

/-- A second file link with the same parent name and a different
parent href. -/
def gf2 : MDFile := ⟨"hf2".toList, "f2".toList, ⟨"a".toList, "h2".toList⟩⟩

/-- Claim C6 counterexample: two file links whose parent-directory
names agree land in two distinct buckets because the hrefs differ, so
grouping is not determined by the derived path-segment name alone. -/
theorem groupByDir_name_only_counterexample :
    GroupByDir [gf1, gf2] =
      [(⟨"a".toList, "h1".toList⟩, [gf1]), (⟨"a".toList, "h2".toList⟩, [gf2])] ∧
    gf1.dir.name = gf2.dir.name ∧ gf1.dir ≠ gf2.dir :=
  ⟨rfl, rfl, by decide⟩

/-- Claim C7 (amended): on every parsed page, package commands'
`Extract` returns exactly the non-absent classifier results of the
page's anchor nodes in pre-order; package main's `Extract`, whose
`visitNode` appends unconditionally, returns the classifier result of
every anchor node in pre-order, absent (nil) entries included. -/
theorem extract_traversal_results (doc : HtmlNode) (extension : List Char)
    (ignoreDirs : List (List Char)) :
    mainExtractFromDoc doc extension ignoreDirs =
      exceptMapList (fun m => mainCheckLink m extension ignoreDirs) (nodeAnchors doc) ∧
    commandsExtractFromDoc doc extension ignoreDirs =
      exceptCollectList (fun m => commandsCheckLink m extension ignoreDirs) (nodeAnchors doc) := by
  constructor
  · rw [mainExtractFromDoc, mainVisitNode_spec]
    cases exceptMapList (fun m => mainCheckLink m extension ignoreDirs)
      (nodeAnchors doc) <;> simp
  · rw [commandsExtractFromDoc, commandsVisitNode_spec]
    cases exceptCollectList (fun m => commandsCheckLink m extension ignoreDirs)
      (nodeAnchors doc) <;> simp

/-- An anchor with a directory-shaped href but without the gating style
class: its classifier result is nil in both packages. -/
def noStyleAnchor : HtmlNode :=
  HtmlNode.mk NodeType.elementNode "a".toList
    [⟨"href".toList, "/user/repo/tree/main/a/b".toList⟩]
    (HtmlForest.cons (HtmlNode.mk NodeType.textNode "b".toList [] HtmlForest.nil)
      HtmlForest.nil)

/-- A parsed document whose only anchor classifies to nil. -/
def nilResultDoc : HtmlNode :=
  HtmlNode.mk NodeType.documentNode [] [] (HtmlForest.cons noStyleAnchor HtmlForest.nil)

/-- Claim C7 counterexample: on a page whose one anchor classifies to
nil, package main's `Extract` returns a sequence containing that nil
entry — absent results are included — while package commands' returns
the empty sequence. -/
theorem extract_includes_nil_counterexample :
    mainExtractFromDoc nilResultDoc ".go".toList [] = Except.ok [none] ∧
    commandsExtractFromDoc nilResultDoc ".go".toList [] = Except.ok [] :=
  ⟨rfl, rfl⟩

/-! Concrete anchor nodes for the classifier claims. -/

/-- A styled anchor with the directory-shaped href
`/user/repo/tree/main/a/b` and label `b`. -/
def dirNode : HtmlNode :=
  HtmlNode.mk NodeType.elementNode "a".toList
    [⟨"href".toList, "/user/repo/tree/main/a/b".toList⟩,
     ⟨"class".toList, rightStyles⟩]
    (HtmlForest.cons (HtmlNode.mk NodeType.textNode "b".toList [] HtmlForest.nil)
      HtmlForest.nil)

/-- A styled anchor with the file-shaped href
`/user/repo/blob/main/a/b/file.go` and label `file.go`. -/
def fileNode : HtmlNode :=
  HtmlNode.mk NodeType.elementNode "a".toList
    [⟨"href".toList, "/user/repo/blob/main/a/b/file.go".toList⟩,
     ⟨"class".toList, rightStyles⟩]
    (HtmlForest.cons (HtmlNode.mk NodeType.textNode "file.go".toList [] HtmlForest.nil)
      HtmlForest.nil)

/-- The absolute URL of `fileNode`'s link. -/
def fileHref : List Char := "https://github.com/user/repo/blob/main/a/b/file.go".toList

/-- Claim C2 counterexample: on the directory-shaped URL
`.../tree/main/a/b` neither classifier returns a DirectoryLink named
`a/b`; package main derives `tree/main/a` (`pathArray[5:len-1]`, keeping
the literal `tree` and the ref and dropping the last segment) and
package commands derives `main/a/b` (`pathArray[6:]`, keeping the ref). -/
theorem classifier_dir_name_counterexample :
    mainCheckLink dirNode ".go".toList [] =
      Except.ok (some (Element.dir ⟨"tree/main/a".toList,
        "https://github.com/user/repo/tree/main/a".toList⟩)) ∧
    "tree/main/a".toList ≠ "a/b".toList ∧
    commandsCheckLink dirNode ".go".toList [] =
      Except.ok (some (Element.dir ⟨"main/a/b".toList,
        "https://github.com/user/repo/tree/main/a/b".toList⟩)) ∧
    "main/a/b".toList ≠ "a/b".toList :=
  ⟨rfl, by decide, rfl, by decide⟩

/-- Claim C2 (amended): for the file-shaped URL
`.../blob/main/a/b/file.go` with extension `.go`, both classifiers
return a FileLink named `file` whose parent directory is named `a/b`,
as the claim states; for the directory-shaped URL `.../tree/main/a/b`,
the DirectoryLink is named `tree/main/a` by package main and
`main/a/b` by package commands, not `a/b`. -/
theorem classifier_shapes_amended :
    mainCheckLink fileNode ".go".toList [] =
      Except.ok (some (Element.file ⟨fileHref, "file".toList,
        ⟨"a/b".toList, "https://github.com/user/repo/blob/main/a/b".toList⟩⟩)) ∧
    commandsCheckLink fileNode ".go".toList [] =
      Except.ok (some (Element.file ⟨fileHref, "file".toList, ⟨"a/b".toList, []⟩⟩)) ∧
    mainCheckLink dirNode ".go".toList [] =
      Except.ok (some (Element.dir ⟨"tree/main/a".toList,
        "https://github.com/user/repo/tree/main/a".toList⟩)) ∧
    commandsCheckLink dirNode ".go".toList [] =
      Except.ok (some (Element.dir ⟨"main/a/b".toList,
        "https://github.com/user/repo/tree/main/a/b".toList⟩)) :=
  ⟨rfl, rfl, rfl, rfl⟩

/-- A styled anchor whose derived directory name contains `vendor`
(href `/user/repo/tree/main/vendor/sub`). -/
def vendorDirNode : HtmlNode :=
  HtmlNode.mk NodeType.elementNode "a".toList
    [⟨"href".toList, "/user/repo/tree/main/vendor/sub".toList⟩,
     ⟨"class".toList, rightStyles⟩]
    (HtmlForest.cons (HtmlNode.mk NodeType.textNode "sub".toList [] HtmlForest.nil)
      HtmlForest.nil)

/-- A styled anchor for a file directly under a `vendor` directory
(href `/user/repo/blob/main/vendor/f.go`). -/
def vendorFileNode : HtmlNode :=
  HtmlNode.mk NodeType.elementNode "a".toList
    [⟨"href".toList, "/user/repo/blob/main/vendor/f.go".toList⟩,
     ⟨"class".toList, rightStyles⟩]
    (HtmlForest.cons (HtmlNode.mk NodeType.textNode "f.go".toList [] HtmlForest.nil)
      HtmlForest.nil)

/-- Claim C3 counterexample: with ignore pattern `vendor`, package
main's classifier does not discard a link whose derived directory name
`tree/main/vendor` contains `vendor` — its `IsContains` matches the
name, used as a regex, against the ignore entries instead of the other
way round, and `vendor` does not contain `tree/main/vendor`. -/
theorem ignore_pruning_counterexample :
    goRegexMatch "vendor".toList "tree/main/vendor".toList = true ∧
    mainCheckLink vendorDirNode ".go".toList ["vendor".toList] =
      Except.ok (some (Element.dir ⟨"tree/main/vendor".toList,
        "https://github.com/user/repo/tree/main/vendor".toList⟩)) :=
  ⟨rfl, rfl⟩

/-- Claim C3 (amended): each classifier discards a link whenever its
own `IsContains` accepts the ignore list and the derived directory
name, before shape-specific construction.  In package commands
`IsContains` finds an ignore pattern anywhere in the candidate name, as
the claim states; in package main the direction is reversed — the
candidate name, used as a regular expression, is searched for inside
the ignore entries — so names that merely contain a pattern are not
discarded there (see the counterexample). -/
theorem ignore_pruning_discards (n : HtmlNode) (extension : List Char)
    (ignoreDirs : List (List Char)) (st : CLState) :
    (commandsAttrLoop extension n = Except.ok st →
      commandsIsContains ignoreDirs st.dirname = true →
      commandsCheckLink n extension ignoreDirs = Except.ok none) ∧
    (mainAttrLoop extension n = Except.ok st →
      mainIsContains ignoreDirs st.dirname = true →
      mainCheckLink n extension ignoreDirs = Except.ok none) := by
  constructor
  · intro h hic
    rw [commandsCheckLink, h]
    by_cases hs : st.hasRightStyles = false <;> simp [commandsFinish, hs, hic]
  · intro h hic
    rw [mainCheckLink, h]
    simp [mainFinish, hic]

/-- Witness for the ignore-pruning theorem at the `vendor` nodes: the
commands classifier discards `main/vendor/sub`; the main classifier
discards a link whose derived name is exactly `vendor`. -/
theorem ignore_pruning_discards_witness :
    commandsCheckLink vendorDirNode ".go".toList ["vendor".toList] = Except.ok none ∧
    mainCheckLink vendorFileNode ".go".toList ["vendor".toList] = Except.ok none :=
  ⟨(ignore_pruning_discards vendorDirNode ".go".toList ["vendor".toList]
      ⟨true, false, true, "https://github.com/user/repo/tree/main/vendor/sub".toList,
        "sub".toList, "main/vendor/sub".toList, []⟩).1 (by rfl) (by rfl),
   (ignore_pruning_discards vendorFileNode ".go".toList ["vendor".toList]
      ⟨true, true, false, "https://github.com/user/repo/blob/main/vendor/f.go".toList,
        "f.go".toList, "vendor".toList,
        "https://github.com/user/repo/blob/main/vendor".toList⟩).2 (by rfl) (by rfl)⟩

/-- A styled anchor with an href attribute but no child node at all. -/
def noChildNode : HtmlNode :=
  HtmlNode.mk NodeType.elementNode "a".toList
    [⟨"href".toList, "/user/repo/tree/main/a/b".toList⟩,
     ⟨"class".toList, rightStyles⟩]
    HtmlForest.nil

/-- Claim C4: both classifiers dereference `n.FirstChild.Data` without
a nil check as soon as the node carries an `href` attribute, so an
anchor with no first child makes `CheckLink` fault (a nil-pointer
panic) instead of returning absent. -/
theorem missing_first_child_faults :
    mainCheckLink noChildNode ".go".toList [] =
      Except.error GoPanic.nilPointerDereference ∧
    commandsCheckLink noChildNode ".go".toList [] =
      Except.error GoPanic.nilPointerDereference :=
  ⟨rfl, rfl⟩

/-- Claim C5: package main derives a file's parent-directory href from
the file's own URL (the URL with its last segment dropped), but package
commands never assigns its `dirhref` variable, so every FileLink it
produces carries an empty parent href — not a non-empty URL derived
from the discovery URL. -/
theorem fileLink_parent_href_evidence :
    mainCheckLink fileNode ".go".toList [] =
      Except.ok (some (Element.file ⟨fileHref, "file".toList,
        ⟨"a/b".toList, "https://github.com/user/repo/blob/main/a/b".toList⟩⟩)) ∧
    "https://github.com/user/repo/blob/main/a/b".toList ≠ ([] : List Char) ∧
    commandsCheckLink fileNode ".go".toList [] =
      Except.ok (some (Element.file ⟨fileHref, "file".toList, ⟨"a/b".toList, []⟩⟩)) :=
  ⟨rfl, by decide, rfl⟩

/-- A styled anchor for a file at repository root
(href `/user/repo/blob/main/readme.md`, derived directory name empty). -/
def rootFileNode : HtmlNode :=
  HtmlNode.mk NodeType.elementNode "a".toList
    [⟨"href".toList, "/user/repo/blob/main/readme.md".toList⟩,
     ⟨"class".toList, rightStyles⟩]
    (HtmlForest.cons (HtmlNode.mk NodeType.textNode "readme.md".toList [] HtmlForest.nil)
      HtmlForest.nil)

/-- The absolute URL of `rootFileNode`'s link. -/
def rootFileHref : List Char := "https://github.com/user/repo/blob/main/readme.md".toList

/-- Claim C10: package main splits an empty `--ignore` flag into
`[""]` (main.go line 255), its `IsContains` then matches the empty
ignore entry for the empty derived name, so a repository-root file link
is discarded; package commands turns the empty flag into an empty
ignore list via `getIgnoreDirs`, its `IsContains` rejects every name on
the empty list, and the same root file link is kept. -/
theorem empty_ignore_flag_effects :
    goSplitChar ' ' "".toList = [[]] ∧
    mainIsContains [[]] [] = true ∧
    mainCheckLink rootFileNode ".md".toList [[]] = Except.ok none ∧
    getIgnoreDirs "".toList = [] ∧
    commandsCheckLink rootFileNode ".md".toList (getIgnoreDirs "".toList) =
      Except.ok (some (Element.file ⟨rootFileHref, "readme".toList, ⟨[], []⟩⟩)) ∧
    (∀ d, commandsIsContains [] d = false) :=
  ⟨rfl, rfl, rfl, rfl, rfl, fun _ => rfl⟩
